import Mathlib

/-!
Verification of the pimgavir-v2 maintenance scripts.

The development embeds the two Python scripts
`scripts/patch_dram_https.py` and `scripts/concatenate_reads.py` as pure
Lean functions over `List Char` (file contents are plain text), together
with an explicit filesystem state for the patcher's target file and its
snapshots.  Every regular-expression pattern in the patcher's rule tables
is fully escaped in the source, so each rule is embedded as the literal
string it matches; the analyzer's detection regex is embedded as an
explicit scanner.
-/

/-- Character-level pattern: `starts q s` holds when `q` is an initial
segment of `s`.  Boolean version. -/
def startsWithL : List Char → List Char → Bool
  | [], _ => true
  | _ :: _, [] => false
  | a :: q, b :: s => a == b && startsWithL q s

/-- Boolean test that `q` is a final segment of `s`. -/
def endsWithL (q s : List Char) : Bool :=
  startsWithL q.reverse s.reverse

/-- Boolean test that `q` occurs contiguously somewhere inside `s`. -/
def containsL (q : List Char) : List Char → Bool
  | [] => q.isEmpty
  | b :: s => startsWithL q (b :: s) || containsL q s

/-- Propositional form: `q` is an initial segment of `s`. -/
def Starts (q s : List Char) : Prop := ∃ t, s = q ++ t

/-- Propositional form: `q` is a final segment of `s`. -/
def Ends (q s : List Char) : Prop := ∃ t, s = t ++ q

/-- Propositional form: `q` occurs contiguously inside `s`. -/
def Occurs (q s : List Char) : Prop := ∃ u v, s = u ++ q ++ v

theorem startsWithL_iff : ∀ q s : List Char, startsWithL q s = true ↔ Starts q s := by
  intro q
  induction q with
  | nil =>
    intro s
    simp [startsWithL, Starts]
  | cons a q ih =>
    intro s
    cases s with
    | nil =>
      simp [startsWithL, Starts]
    | cons b s =>
      simp only [startsWithL, Bool.and_eq_true, beq_iff_eq]
      constructor
      · rintro ⟨rfl, h⟩
        obtain ⟨t, rfl⟩ := (ih s).1 h
        exact ⟨t, rfl⟩
      · rintro ⟨t, ht⟩
        injection ht with h1 h2
        exact ⟨h1.symm, (ih s).2 ⟨t, h2⟩⟩

theorem endsWithL_iff (q s : List Char) : endsWithL q s = true ↔ Ends q s := by
  rw [endsWithL, startsWithL_iff]
  constructor
  · rintro ⟨t, ht⟩
    refine ⟨t.reverse, ?_⟩
    have := congrArg List.reverse ht
    simpa using this
  · rintro ⟨t, rfl⟩
    exact ⟨t.reverse, by simp⟩

theorem starts_occurs {q s : List Char} (h : Starts q s) : Occurs q s := by
  obtain ⟨t, rfl⟩ := h
  exact ⟨[], t, rfl⟩

theorem occurs_nil_iff (q : List Char) : Occurs q [] ↔ q = [] := by
  constructor
  · rintro ⟨u, v, h⟩
    rcases List.append_eq_nil.1 h.symm with ⟨h1, h2⟩
    rcases List.append_eq_nil.1 h1 with ⟨_, h3⟩
    exact h3
  · rintro rfl
    exact ⟨[], [], rfl⟩

theorem occurs_cons_iff {q : List Char} {b : Char} {s : List Char} :
    Occurs q (b :: s) ↔ Starts q (b :: s) ∨ Occurs q s := by
  constructor
  · rintro ⟨u, v, h⟩
    cases u with
    | nil => exact Or.inl ⟨v, by simpa using h⟩
    | cons c u =>
      injection h with h1 h2
      exact Or.inr ⟨u, v, h2⟩
  · rintro (h | ⟨u, v, rfl⟩)
    · exact starts_occurs h
    · exact ⟨b :: u, v, rfl⟩

theorem occurs_append_right {q t : List Char} (w : List Char) (h : Occurs q t) :
    Occurs q (w ++ t) := by
  obtain ⟨u, v, rfl⟩ := h
  exact ⟨w ++ u, v, by simp⟩

theorem occurs_append_left {q w : List Char} (t : List Char) (h : Occurs q w) :
    Occurs q (w ++ t) := by
  obtain ⟨u, v, rfl⟩ := h
  exact ⟨u, v ++ t, by simp⟩

theorem occurs_of_occurs_occurs {q w s : List Char} (h1 : Occurs q w) (h2 : Occurs w s) :
    Occurs q s := by
  obtain ⟨u, v, rfl⟩ := h1
  obtain ⟨x, y, rfl⟩ := h2
  exact ⟨x ++ u, v ++ y, by simp⟩

/-- Splitting an occurrence of `q` across a concatenation `r ++ x`:
it lies inside `r`, inside `x`, or spans the junction, in which case a
nonempty proper initial segment of `q` is a final segment of `r` and the
nonempty rest of `q` is an initial segment of `x`. -/
theorem occurs_append_split {q r x : List Char} (h : Occurs q (r ++ x)) :
    Occurs q r ∨
      (∃ a b, a ≠ [] ∧ b ≠ [] ∧ q = a ++ b ∧ Ends a r ∧ Starts b x) ∨
      Occurs q x := by
  obtain ⟨u, v, huv⟩ := h
  rcases List.append_eq_append_iff.1 huv with ⟨e, he1, he2⟩ | ⟨e, he1, he2⟩
  · -- u ++ q = r ++ e and x = e ++ v
    rcases List.append_eq_append_iff.1 he1 with ⟨f, hf1, hf2⟩ | ⟨f, hf1, hf2⟩
    · -- r = u ++ f and q = f ++ e
      cases e with
      | nil =>
        refine Or.inl ⟨u, [], ?_⟩
        rw [hf1, hf2]
        simp
      | cons c e' =>
        cases f with
        | nil =>
          refine Or.inr (Or.inr ⟨[], v, ?_⟩)
          rw [he2, hf2]
          simp
        | cons d f' =>
          exact Or.inr (Or.inl ⟨d :: f', c :: e', by simp, by simp, hf2,
            ⟨u, hf1⟩, ⟨v, he2⟩⟩)
    · -- u = r ++ f and e = f ++ q : q occurs inside x
      refine Or.inr (Or.inr ⟨f, v, ?_⟩)
      rw [he2, hf2]
  · -- r = (u ++ q) ++ e : q occurs inside r
    exact Or.inl ⟨u, e, by rw [he1]⟩

theorem starts_append_split {b r x : List Char} (h : Starts b (r ++ x)) :
    Starts b r ∨ (∃ e, b = r ++ e ∧ Starts e x) := by
  obtain ⟨t, ht⟩ := h
  rcases List.append_eq_append_iff.1 ht.symm with ⟨e, he1, he2⟩ | ⟨e, he1, he2⟩
  · exact Or.inl ⟨e, he1⟩
  · exact Or.inr ⟨e, he1, ⟨t, he2⟩⟩

theorem starts_cons_elim {b : List Char} {c : Char} {x : List Char}
    (h : Starts b (c :: x)) (hb : b ≠ []) :
    ∃ b', b = c :: b' ∧ Starts b' x := by
  obtain ⟨t, ht⟩ := h
  cases b with
  | nil => exact absurd rfl hb
  | cons d b' =>
    injection ht with h1 h2
    exact ⟨b', by rw [h1], ⟨t, h2⟩⟩

theorem starts_cons_intro {b' : List Char} {c : Char} {x : List Char}
    (h : Starts b' x) : Starts (c :: b') (c :: x) := by
  obtain ⟨t, rfl⟩ := h
  exact ⟨t, rfl⟩

theorem ends_tail {b : List Char} {c : Char} {b' q : List Char}
    (h : Ends b q) (hb : b = c :: b') : Ends b' q := by
  obtain ⟨t, rfl⟩ := h
  subst hb
  exact ⟨t ++ [c], by simp⟩

theorem ends_length_lt {b q : List Char} (h : Ends b q) (hne : b ≠ q) :
    b.length < q.length := by
  obtain ⟨t, rfl⟩ := h
  cases t with
  | nil => simp at hne
  | cons c t =>
    simp only [List.length_append, List.length_cons]
    omega

theorem starts_of_occurs_starts {r b q : List Char} (hrb : Starts r b) (hbq : Ends b q) :
    Occurs r q := by
  obtain ⟨t, rfl⟩ := hrb
  obtain ⟨w, rfl⟩ := hbq
  exact ⟨w, t, by simp⟩

/-- One left-to-right pass of `re.sub` for a fully escaped (hence literal)
pattern `p` and literal replacement `r`: at each position, if `p` matches,
emit `r` and resume after the match, otherwise keep one character and move
on.  `fuel` is a structural-recursion bound; callers pass `s.length`,
which always suffices because a successful match consumes at least one
character (the guard requires `0 < p.length`, true of every rule pattern
in the source). -/
def replaceAllF (p r : List Char) : Nat → List Char → List Char
  | _, [] => []
  | 0, c :: rest => c :: rest
  | fuel + 1, c :: rest =>
    if 0 < p.length && startsWithL p (c :: rest) then
      r ++ replaceAllF p r fuel ((c :: rest).drop p.length)
    else
      c :: replaceAllF p r fuel rest

/-- `re.sub(p, r, s)` for the literal pattern `p`. -/
def replaceAll (p r s : List Char) : List Char := replaceAllF p r s.length s

/-- `len(re.findall(p, s))` for a literal pattern `p`: the number of
non-overlapping matches found by the same left-to-right scan. -/
def countOccF (p : List Char) : Nat → List Char → Nat
  | _, [] => 0
  | 0, _ :: _ => 0
  | fuel + 1, c :: rest =>
    if 0 < p.length && startsWithL p (c :: rest) then
      countOccF p fuel ((c :: rest).drop p.length) + 1
    else
      countOccF p fuel rest

/-- Match count of the literal pattern `p` against `s`. -/
def countOcc (p s : List Char) : Nat := countOccF p s.length s

theorem starts_drop {p s : List Char} (h : startsWithL p s = true) :
    s = p ++ s.drop p.length := by
  obtain ⟨t, rfl⟩ := (startsWithL_iff p s).1 h
  rw [List.drop_left]

theorem replaceAllF_of_not_occurs {p r s : List Char}
    (h : p = [] ∨ ¬ Occurs p s) : ∀ fuel, replaceAllF p r fuel s = s := by
  induction s with
  | nil => intro fuel; cases fuel <;> rfl
  | cons c rest ih =>
    intro fuel
    cases fuel with
    | zero => rfl
    | succ fuel =>
      have hg : (0 < p.length && startsWithL p (c :: rest)) = false := by
        rcases h with h | h
        · subst h; rfl
        · cases hs : startsWithL p (c :: rest) with
          | false => simp [hs]
          | true => exact absurd (starts_occurs ((startsWithL_iff _ _).1 hs)) h
      have h' : p = [] ∨ ¬ Occurs p rest := by
        rcases h with h | h
        · exact Or.inl h
        · exact Or.inr fun ho => h (occurs_cons_iff.2 (Or.inr ho))
      simp only [replaceAllF, hg, Bool.false_eq_true, if_false, ih h' fuel]

theorem countOccF_of_not_occurs {p s : List Char}
    (h : p = [] ∨ ¬ Occurs p s) : ∀ fuel, countOccF p fuel s = 0 := by
  induction s with
  | nil => intro fuel; cases fuel <;> rfl
  | cons c rest ih =>
    intro fuel
    cases fuel with
    | zero => rfl
    | succ fuel =>
      have hg : (0 < p.length && startsWithL p (c :: rest)) = false := by
        rcases h with h | h
        · subst h; rfl
        · cases hs : startsWithL p (c :: rest) with
          | false => simp [hs]
          | true => exact absurd (starts_occurs ((startsWithL_iff _ _).1 hs)) h
      have h' : p = [] ∨ ¬ Occurs p rest := by
        rcases h with h | h
        · exact Or.inl h
        · exact Or.inr fun ho => h (occurs_cons_iff.2 (Or.inr ho))
      simp only [countOccF, hg, Bool.false_eq_true, if_false, ih h' fuel]

theorem countOccF_pos_of_occurs {p : List Char} (hp : 0 < p.length) :
    ∀ fuel s, s.length ≤ fuel → Occurs p s → 0 < countOccF p fuel s := by
  intro fuel
  induction fuel with
  | zero =>
    intro s hs ho
    have : s = [] := List.length_eq_zero.1 (Nat.le_zero.1 hs)
    subst this
    have := (occurs_nil_iff p).1 ho
    subst this
    simp at hp
  | succ fuel ih =>
    intro s hs ho
    cases s with
    | nil =>
      have := (occurs_nil_iff p).1 ho
      subst this
      simp at hp
    | cons c rest =>
      by_cases hg : (0 < p.length && startsWithL p (c :: rest)) = true
      · simp only [countOccF, hg, if_true]
        exact Nat.succ_pos _
      · have hg' : (0 < p.length && startsWithL p (c :: rest)) = false :=
          Bool.not_eq_true _ ▸ Bool.of_not_eq_true hg
        simp only [countOccF, hg', Bool.false_eq_true, if_false]
        have hns : startsWithL p (c :: rest) = false := by
          cases hs2 : startsWithL p (c :: rest) with
          | false => rfl
          | true => simp [hs2, hp] at hg'
        have horest : Occurs p rest := by
          rcases occurs_cons_iff.1 ho with hst | h
          · exact absurd ((startsWithL_iff _ _).2 hst) (by simp [hns])
          · exact h
        exact ih rest (by simpa using Nat.le_of_succ_le_succ hs) horest

theorem countOcc_eq_zero_iff {p : List Char} (hp : 0 < p.length) (s : List Char) :
    countOcc p s = 0 ↔ ¬ Occurs p s := by
  constructor
  · intro h ho
    have := countOccF_pos_of_occurs hp s.length s (Nat.le_refl _) ho
    rw [countOcc] at h
    omega
  · intro h
    exact countOccF_of_not_occurs (Or.inr h) s.length

theorem replaceAll_of_countOcc_zero {p r s : List Char} (h : countOcc p s = 0) :
    replaceAll p r s = s := by
  rcases Nat.eq_zero_or_pos p.length with hp | hp
  · exact replaceAllF_of_not_occurs (Or.inl (List.length_eq_zero.1 hp)) s.length
  · exact replaceAllF_of_not_occurs (Or.inr ((countOcc_eq_zero_iff hp s).1 h)) s.length

theorem ends_length_le {b q : List Char} (h : Ends b q) : b.length ≤ q.length := by
  obtain ⟨t, rfl⟩ := h
  simp

theorem ne_of_length_lt {b q : List Char} (h : b.length < q.length) : b ≠ q := by
  intro he
  subst he
  exact Nat.lt_irrefl _ h

/-- Core rewriting lemma.  If the tracked string `q` does not occur in the
replacement `r`, no nonempty proper initial segment of `q` is a final
segment of `r`, no nonempty proper final segment of `q` is an initial
segment of `r`, and `r` does not occur in `q`, then a full left-to-right
replacement pass of `p` by `r` leaves no occurrence of `q` behind —
provided `q` is the replaced pattern itself, or `q` did not occur in the
input.  The second conjunct is the strengthening that makes the induction
go through: a proper nonempty final segment of `q` can lead the output
only if it already led the input. -/
theorem replaceAllF_no_occurs (q p r : List Char) (hq : q ≠ []) (hp : 0 < p.length)
    (h1 : ¬ Occurs q r)
    (h2 : ∀ a, Starts a q → a ≠ [] → a ≠ q → ¬ Ends a r)
    (h3 : ∀ b, Ends b q → b ≠ [] → b ≠ q → ¬ Starts b r)
    (h4 : ¬ Occurs r q) :
    ∀ fuel s, s.length ≤ fuel → (q = p ∨ ¬ Occurs q s) →
      ¬ Occurs q (replaceAllF p r fuel s) ∧
      (∀ b, Ends b q → b ≠ [] → b ≠ q → Starts b (replaceAllF p r fuel s) → Starts b s) := by
  intro fuel
  induction fuel with
  | zero =>
    intro s hs _
    have hsnil : s = [] := List.length_eq_zero.1 (Nat.le_zero.1 hs)
    subst hsnil
    refine ⟨fun ho => hq ((occurs_nil_iff q).1 (by simpa [replaceAllF] using ho)), ?_⟩
    intro b _ hbne _ hSb
    obtain ⟨t, ht⟩ := hSb
    simp only [replaceAllF] at ht
    exact absurd (List.append_eq_nil.1 ht.symm).1 hbne
  | succ fuel ih =>
    intro s hs hhyp
    cases s with
    | nil =>
      refine ⟨fun ho => hq ((occurs_nil_iff q).1 (by simpa [replaceAllF] using ho)), ?_⟩
      intro b _ hbne _ hSb
      obtain ⟨t, ht⟩ := hSb
      simp only [replaceAllF] at ht
      exact absurd (List.append_eq_nil.1 ht.symm).1 hbne
    | cons c rest =>
      by_cases hg : (decide (0 < p.length) && startsWithL p (c :: rest)) = true
      · -- a match of `p` starts here: output is r ++ (recursive output)
        have hsw : startsWithL p (c :: rest) = true := by
          simp only [Bool.and_eq_true] at hg
          exact hg.2
        have hdecomp : (c :: rest) = p ++ (c :: rest).drop p.length := starts_drop hsw
        have hlen : ((c :: rest).drop p.length).length ≤ fuel := by
          rw [List.length_drop]
          simp only [List.length_cons] at hs ⊢
          omega
        have hhyp'' : q = p ∨ ¬ Occurs q ((c :: rest).drop p.length) := by
          rcases hhyp with h | h
          · exact Or.inl h
          · refine Or.inr fun ho => h ?_
            rw [hdecomp]
            exact occurs_append_right p ho
        obtain ⟨IH1, IH2⟩ := ih ((c :: rest).drop p.length) hlen hhyp''
        rw [show replaceAllF p r (fuel + 1) (c :: rest) =
              r ++ replaceAllF p r fuel ((c :: rest).drop p.length) by
            simp only [replaceAllF, hg, if_true]]
        constructor
        · intro hocc
          rcases occurs_append_split hocc with hr | ⟨a, b, ha, hb, hab, har, hbA⟩ | hA
          · exact h1 hr
          · have haq : a ≠ q := by
              refine ne_of_length_lt ?_
              rw [hab, List.length_append]
              cases b with
              | nil => exact absurd rfl hb
              | cons d b' => simp only [List.length_cons]; omega
            exact h2 a ⟨b, hab⟩ ha haq har
          · exact IH1 hA
        · intro b hEb hbne hbq hSb
          rcases starts_append_split hSb with hbr | ⟨e, hbe, _⟩
          · exact absurd hbr (h3 b hEb hbne hbq)
          · exact absurd (starts_of_occurs_starts ⟨e, hbe⟩ hEb) h4
      · -- no match here: output keeps `c` and recurses on `rest`
        have hg' : (decide (0 < p.length) && startsWithL p (c :: rest)) = false :=
          Bool.of_not_eq_true hg
        have hns : startsWithL p (c :: rest) = false := by
          cases hsw : startsWithL p (c :: rest) with
          | false => rfl
          | true => rw [hsw, decide_eq_true hp] at hg'; exact absurd hg' (by simp)
        have hlen : rest.length ≤ fuel := by
          simp only [List.length_cons] at hs
          omega
        have hhyp' : q = p ∨ ¬ Occurs q rest := by
          rcases hhyp with h | h
          · exact Or.inl h
          · exact Or.inr fun ho => h (occurs_cons_iff.2 (Or.inr ho))
        obtain ⟨IH1, IH2⟩ := ih rest hlen hhyp'
        rw [show replaceAllF p r (fuel + 1) (c :: rest) =
              c :: replaceAllF p r fuel rest by
            simp only [replaceAllF, hg', Bool.false_eq_true, if_false]]
        have hnostart : ¬ Starts q (c :: rest) := by
          intro hqs
          rcases hhyp with h | h
          · subst h
            rw [(startsWithL_iff q (c :: rest)).2 hqs] at hns
            exact absurd hns (by simp)
          · exact h (starts_occurs hqs)
        constructor
        · intro hocc
          rcases occurs_cons_iff.1 hocc with hst | hin
          · obtain ⟨q', hq', hSq'⟩ := starts_cons_elim hst hq
            cases q' with
            | nil =>
              exact hnostart (by rw [hq']; exact ⟨rest, rfl⟩)
            | cons d q'' =>
              have hEq' : Ends (d :: q'') q := ⟨[c], by rw [hq']; rfl⟩
              have hq'q : (d :: q'') ≠ q := by
                refine ne_of_length_lt ?_
                rw [hq']
                simp
              have := IH2 (d :: q'') hEq' (by simp) hq'q hSq'
              exact hnostart (by rw [hq']; exact starts_cons_intro this)
          · exact IH1 hin
        · intro b hEb hbne hbq hSb
          obtain ⟨b', hb', hSb'⟩ := starts_cons_elim hSb hbne
          cases b' with
          | nil =>
            rw [hb']
            exact ⟨rest, rfl⟩
          | cons d b'' =>
            have hEb' : Ends (d :: b'') q := ends_tail hEb hb'
            have hb'q : (d :: b'') ≠ q := by
              refine ne_of_length_lt ?_
              have h1' : b.length ≤ q.length := ends_length_le hEb
              rw [hb'] at h1'
              simp only [List.length_cons] at h1'
              simp only [List.length_cons]
              omega
            have := IH2 (d :: b'') hEb' (by simp) hb'q hSb'
            rw [hb']
            exact starts_cons_intro this

theorem containsL_iff (q : List Char) : ∀ s, containsL q s = true ↔ Occurs q s := by
  intro s
  induction s with
  | nil =>
    simp only [containsL, List.isEmpty_iff, occurs_nil_iff]
  | cons b s ih =>
    simp only [containsL, Bool.or_eq_true, startsWithL_iff, ih, occurs_cons_iff]

/-- Decidable overlap conditions between a tracked string `q` and a
replacement `r`, packaged so a single kernel evaluation can discharge
them for the concrete rule tables. -/
def okPair (q r : List Char) : Bool :=
  !(containsL q r) &&
  ((List.range q.length).all fun j => j == 0 || !(endsWithL (q.take j) r)) &&
  ((List.range q.length).all fun j => j == 0 || !(startsWithL (q.drop j) r)) &&
  !(containsL r q)

theorem okPair_spec {q r : List Char} (h : okPair q r = true) :
    ¬ Occurs q r ∧
    (∀ a, Starts a q → a ≠ [] → a ≠ q → ¬ Ends a r) ∧
    (∀ b, Ends b q → b ≠ [] → b ≠ q → ¬ Starts b r) ∧
    ¬ Occurs r q := by
  simp only [okPair, Bool.and_eq_true, Bool.not_eq_true', List.all_eq_true,
    List.mem_range, Bool.or_eq_true, beq_iff_eq, Bool.not_eq_true] at h
  obtain ⟨⟨⟨hc1, hall1⟩, hall2⟩, hc4⟩ := h
  refine ⟨?_, ?_, ?_, ?_⟩
  · intro ho
    rw [(containsL_iff q r).2 ho] at hc1
    cases hc1
  · intro a hSa hane haq hEa
    obtain ⟨t, ht⟩ := hSa
    have htne : t ≠ [] := by
      intro h0
      rw [h0, List.append_nil] at ht
      exact haq ht.symm
    have hlen : a.length < q.length := by
      rw [ht, List.length_append]
      cases t with
      | nil => exact absurd rfl htne
      | cons d t' => simp only [List.length_cons]; omega
    have hja : q.take a.length = a := by
      rw [ht]
      exact List.take_left a t
    have hane' : a.length ≠ 0 := by
      intro h0
      exact hane (List.length_eq_zero.1 h0)
    have := hall1 a.length hlen
    rcases this with h0 | hfalse
    · exact hane' h0
    · rw [hja] at hfalse
      rw [(endsWithL_iff a r).2 hEa] at hfalse
      cases hfalse
  · intro b hEb hbne hbq hSb
    obtain ⟨t, ht⟩ := hEb
    have htne : t ≠ [] := by
      intro h0
      rw [h0, List.nil_append] at ht
      exact hbq ht.symm
    have hjb : q.drop t.length = b := by
      rw [ht]
      exact List.drop_left t b
    have hlt : t.length < q.length := by
      rw [ht, List.length_append]
      cases b with
      | nil => exact absurd rfl hbne
      | cons d b' => simp only [List.length_cons]; omega
    have htne' : t.length ≠ 0 := by
      intro h0
      exact htne (List.length_eq_zero.1 h0)
    have := hall2 t.length hlt
    rcases this with h0 | hfalse
    · exact htne' h0
    · rw [hjb] at hfalse
      rw [(startsWithL_iff b r).2 hSb] at hfalse
      cases hfalse
  · intro ho
    rw [(containsL_iff r q).2 ho] at hc4
    cases hc4

/-- Rule category tag: URL scheme rewrites versus source-level bug
fixes, mirroring the two dictionaries of `DRAMPatcher`. -/
inductive RuleCat
  | URL
  | BUG
deriving DecidableEq

/-- One entry of the change record produced by `apply_patch`:
`(change_type, pattern, replacement, len(matches))`.  Fully escaped
regex patterns are embedded as the literal strings they match. -/
structure ChangeEntry where
  cat : RuleCat
  pat : List Char
  repl : List Char
  count : Nat
deriving DecidableEq

/-- `DRAMPatcher.URL_REPLACEMENTS`: the six FTP → HTTPS rewrites, in
dictionary (insertion) order.  Each regex is fully escaped in the
source, so it is embedded as the literal string it matches. -/
def URL_REPLACEMENTS : List (List Char × List Char) :=
  [("ftp://ftp.genome.jp/".toList, "https://www.genome.jp/ftp/".toList),
   ("ftp://ftp.ebi.ac.uk/pub/databases/Pfam/".toList,
    "https://ftp.ebi.ac.uk/pub/databases/Pfam/".toList),
   ("ftp://ftp.uniprot.org/pub/databases/uniprot/".toList,
    "https://ftp.uniprot.org/pub/databases/uniprot/".toList),
   ("ftp://ftp.ebi.ac.uk/pub/databases/merops/".toList,
    "https://ftp.ebi.ac.uk/pub/databases/merops/".toList),
   ("ftp://bcb.unl.edu/dbCAN2/".toList, "https://bcb.unl.edu/dbCAN2/".toList),
   ("ftp://fileshare.csb.univie.ac.at/vog/".toList,
    "https://fileshare.csb.univie.ac.at/vog/".toList)]

/-- `DRAMPatcher.BUG_FIXES`: the single VOG HMM path fix.  The escaped
regex matches the literal text embedded here (\x27 is the ASCII
apostrophe). -/
def BUG_FIXES : List (List Char × List Char) :=
  [("path.join(hmm_dir, \x27VOG*.hmm\x27)".toList,
    "path.join(hmm_dir, \x27hmm\x27, \x27VOG*.hmm\x27)".toList)]

/-- One iteration of the rule-application loops in
`DRAMPatcher.apply_patch`: count matches against the current text; if
positive, substitute globally and append one change record entry. -/
def applyRule (cat : RuleCat) (acc : List Char × List ChangeEntry)
    (rule : List Char × List Char) : List Char × List ChangeEntry :=
  let n := countOcc rule.1 acc.1
  if 0 < n then
    (replaceAll rule.1 rule.2 acc.1, acc.2 ++ [⟨cat, rule.1, rule.2, n⟩])
  else acc

/-- The in-memory text transformation of `DRAMPatcher.apply_patch`: the
URL replacement loop followed by the bug fix loop, threading the
modified content and the accumulated change record. -/
def patchTransform (s : List Char) : List Char × List ChangeEntry :=
  BUG_FIXES.foldl (applyRule RuleCat.BUG)
    (URL_REPLACEMENTS.foldl (applyRule RuleCat.URL) (s, []))

/-- The combined rule sequence in application order. -/
def allRulePairs : List (List Char × List Char) := URL_REPLACEMENTS ++ BUG_FIXES

/-- Pure text effect of running a list of rules in order (each
substitution applied over the cumulative result of the earlier ones). -/
def foldRepl (rules : List (List Char × List Char)) (s : List Char) : List Char :=
  rules.foldl (fun t pr => replaceAll pr.1 pr.2 t) s

theorem applyRule_fst (cat : RuleCat) (acc : List Char × List ChangeEntry)
    (rule : List Char × List Char) :
    (applyRule cat acc rule).1 = replaceAll rule.1 rule.2 acc.1 := by
  rw [applyRule]
  by_cases h : 0 < countOcc rule.1 acc.1
  · simp only [h, if_true]
  · have h0 : countOcc rule.1 acc.1 = 0 := Nat.eq_zero_of_not_pos h
    simp only [h, if_false, replaceAll_of_countOcc_zero h0]

theorem foldl_applyRule_fst (cat : RuleCat) :
    ∀ (rules : List (List Char × List Char)) (acc : List Char × List ChangeEntry),
      (rules.foldl (applyRule cat) acc).1 = foldRepl rules acc.1 := by
  intro rules
  induction rules with
  | nil => intro acc; rfl
  | cons rule rest ih =>
    intro acc
    show (rest.foldl (applyRule cat) (applyRule cat acc rule)).1 =
      foldRepl rest (replaceAll rule.1 rule.2 acc.1)
    rw [ih, applyRule_fst]

theorem foldRepl_preserves {q : List Char} (hq : q ≠ []) :
    ∀ rules : List (List Char × List Char),
      (∀ pr ∈ rules, 0 < pr.1.length ∧ okPair q pr.2 = true) →
      ∀ s, ¬ Occurs q s → ¬ Occurs q (foldRepl rules s) := by
  intro rules
  induction rules with
  | nil =>
    intro _ s hno
    exact hno
  | cons rule rest ih =>
    intro hok s hno
    obtain ⟨hp, hpair⟩ := hok rule (List.mem_cons_self _ _)
    obtain ⟨h1, h2, h3, h4⟩ := okPair_spec hpair
    have step := (replaceAllF_no_occurs q rule.1 rule.2 hq hp h1 h2 h3 h4
      s.length s (Nat.le_refl _) (Or.inr hno)).1
    exact ih (fun pr hm => hok pr (List.mem_cons_of_mem _ hm)) _ step

/-- Decidable well-formedness of an ordered rule list: every pattern is
nonempty, every pattern has no dangerous overlap with its own
replacement, and no earlier pattern overlaps any later replacement. -/
def ruleListOK : List (List Char × List Char) → Bool
  | [] => true
  | (p, r) :: rest =>
    (0 < p.length) && okPair p r && (rest.all fun pr => okPair p pr.2) && ruleListOK rest

theorem ruleListOK_nonempty :
    ∀ rules, ruleListOK rules = true → ∀ pr ∈ rules, 0 < pr.1.length := by
  intro rules
  induction rules with
  | nil =>
    intro _ pr hm
    cases hm
  | cons rule rest ih =>
    intro hok pr hm
    obtain ⟨p, r⟩ := rule
    simp only [ruleListOK, Bool.and_eq_true, decide_eq_true_eq] at hok
    rcases List.mem_cons.1 hm with rfl | hm'
    · exact hok.1.1.1
    · exact ih hok.2 pr hm'

/-- After running a well-formed rule list over any input, no rule's
pattern occurs in the result. -/
theorem foldRepl_kills :
    ∀ rules, ruleListOK rules = true →
      ∀ pr ∈ rules, ∀ s, ¬ Occurs pr.1 (foldRepl rules s) := by
  intro rules
  induction rules with
  | nil =>
    intro _ pr hm
    cases hm
  | cons rule rest ih =>
    intro hok pr hm s
    obtain ⟨p, r⟩ := rule
    simp only [ruleListOK, Bool.and_eq_true, List.all_eq_true, decide_eq_true_eq] at hok
    obtain ⟨⟨⟨hplen, hself⟩, hcross⟩, hrest⟩ := hok
    rcases List.mem_cons.1 hm with rfl | hm'
    · have hq : p ≠ [] := by
        intro h0
        rw [h0] at hplen
        simp at hplen
      obtain ⟨h1, h2, h3, h4⟩ := okPair_spec hself
      have step := (replaceAllF_no_occurs p p r hq hplen h1 h2 h3 h4
        s.length s (Nat.le_refl _) (Or.inl rfl)).1
      exact foldRepl_preserves hq rest
        (fun pr' hm' => ⟨ruleListOK_nonempty rest hrest pr' hm', hcross pr' hm'⟩) _ step
    · exact ih hrest pr hm' (replaceAll p r s)

theorem foldl_applyRule_of_no_match (cat : RuleCat) :
    ∀ (rules : List (List Char × List Char)) (acc : List Char × List ChangeEntry),
      (∀ pr ∈ rules, countOcc pr.1 acc.1 = 0) →
      rules.foldl (applyRule cat) acc = acc := by
  intro rules
  induction rules with
  | nil =>
    intro acc _
    rfl
  | cons rule rest ih =>
    intro acc hc
    have h0 : countOcc rule.1 acc.1 = 0 := hc rule (List.mem_cons_self _ _)
    have hstep : applyRule cat acc rule = acc := by
      rw [applyRule]
      simp only [h0, Nat.lt_irrefl, if_false]
    show rest.foldl (applyRule cat) (applyRule cat acc rule) = acc
    rw [hstep]
    exact ih acc (fun pr hm => hc pr (List.mem_cons_of_mem _ hm))

theorem patchTransform_fst (s : List Char) :
    (patchTransform s).1 = foldRepl allRulePairs s := by
  rw [patchTransform, foldl_applyRule_fst, foldl_applyRule_fst]
  show foldRepl BUG_FIXES (foldRepl URL_REPLACEMENTS s) =
    List.foldl (fun t pr => replaceAll pr.1 pr.2 t) s (URL_REPLACEMENTS ++ BUG_FIXES)
  rw [List.foldl_append]
  rfl

/-- The concrete rule tables of `DRAMPatcher` are well formed: checked
once by kernel evaluation. -/
theorem allRulePairs_ok : ruleListOK allRulePairs = true := by decide


theorem foldl_applyRule_no_match_pair (cat : RuleCat)
    (rules : List (List Char × List Char)) (t : List Char) (cs : List ChangeEntry)
    (h : ∀ pr ∈ rules, countOcc pr.1 t = 0) :
    rules.foldl (applyRule cat) (t, cs) = (t, cs) :=
  foldl_applyRule_of_no_match cat rules (t, cs) h

/-- C2: applying the full rule sequence of `apply_patch` (URL
replacements then bug fixes) twice is idempotent: the second run returns
the same content, records zero changes, and every rule's match count
against the once-patched content is zero. -/
theorem apply_patch_idempotent (s : List Char) :
    patchTransform (patchTransform s).1 = ((patchTransform s).1, []) ∧
    (allRulePairs.all fun pr => countOcc pr.1 (patchTransform s).1 == 0) = true := by
  have hzero : ∀ pr ∈ allRulePairs, countOcc pr.1 (patchTransform s).1 = 0 := by
    intro pr hm
    rw [patchTransform_fst]
    exact (countOcc_eq_zero_iff (ruleListOK_nonempty allRulePairs allRulePairs_ok pr hm) _).2
      (foldRepl_kills allRulePairs allRulePairs_ok pr hm s)
  have hURL : ∀ pr ∈ URL_REPLACEMENTS, countOcc pr.1 (patchTransform s).1 = 0 := by
    intro pr hm
    refine hzero pr ?_
    rw [allRulePairs]
    exact List.mem_append_left _ hm
  have hBUG : ∀ pr ∈ BUG_FIXES, countOcc pr.1 (patchTransform s).1 = 0 := by
    intro pr hm
    refine hzero pr ?_
    rw [allRulePairs]
    exact List.mem_append_right _ hm
  constructor
  · show BUG_FIXES.foldl (applyRule RuleCat.BUG)
      (URL_REPLACEMENTS.foldl (applyRule RuleCat.URL) ((patchTransform s).1, [])) =
      ((patchTransform s).1, [])
    rw [foldl_applyRule_no_match_pair RuleCat.URL URL_REPLACEMENTS (patchTransform s).1 [] hURL]
    exact foldl_applyRule_no_match_pair RuleCat.BUG BUG_FIXES (patchTransform s).1 [] hBUG
  · rw [List.all_eq_true]
    intro pr hm
    rw [beq_iff_eq]
    exact hzero pr hm

theorem applyRule_pos {p r t : List Char} {cs : List ChangeEntry} (cat : RuleCat)
    (h : 0 < countOcc p t) :
    applyRule cat (t, cs) (p, r) =
      (replaceAll p r t, cs ++ [⟨cat, p, r, countOcc p t⟩]) := by
  show (if 0 < countOcc p t then
      (replaceAll p r t, cs ++ [⟨cat, p, r, countOcc p t⟩]) else (t, cs)) = _
  rw [if_pos h]

theorem applyRule_zero {p r t : List Char} {cs : List ChangeEntry} (cat : RuleCat)
    (h : ¬ 0 < countOcc p t) :
    applyRule cat (t, cs) (p, r) = (t, cs) := by
  show (if 0 < countOcc p t then
      (replaceAll p r t, cs ++ [⟨cat, p, r, countOcc p t⟩]) else (t, cs)) = _
  rw [if_neg h]

/-- The Rule Set as one ordered list with category tags: URL rules
first, then bug-fix rules, in dictionary order within each category. -/
def taggedRules : List (RuleCat × (List Char × List Char)) :=
  URL_REPLACEMENTS.map (fun pr => (RuleCat.URL, pr)) ++
    BUG_FIXES.map (fun pr => (RuleCat.BUG, pr))

/-- Companion definition following the spec's wording of the apply
pass: for each rule in Rule Set order, count matches against the
current in-memory text; if the count is positive, substitute globally
and append one change record entry carrying the rule's category,
pattern, replacement and match count. -/
def specPass : List (RuleCat × (List Char × List Char)) → List Char →
    List Char × List ChangeEntry
  | [], s => (s, [])
  | (cat, p, r) :: rules, s =>
    let n := countOcc p s
    if 0 < n then
      let res := specPass rules (replaceAll p r s)
      (res.1, ⟨cat, p, r, n⟩ :: res.2)
    else specPass rules s

theorem foldl_applyRule_eq_specPass (cat : RuleCat) :
    ∀ (rules : List (List Char × List Char)) (t : List Char) (cs : List ChangeEntry),
      rules.foldl (applyRule cat) (t, cs) =
        ((specPass (rules.map fun pr => (cat, pr)) t).1,
         cs ++ (specPass (rules.map fun pr => (cat, pr)) t).2) := by
  intro rules
  induction rules with
  | nil =>
    intro t cs
    simp [specPass]
  | cons rule rest ih =>
    intro t cs
    obtain ⟨p, r⟩ := rule
    show rest.foldl (applyRule cat) (applyRule cat (t, cs) (p, r)) = _
    by_cases h : 0 < countOcc p t
    · rw [applyRule_pos cat h, ih]
      simp only [List.map_cons, specPass, if_pos h, List.append_assoc, List.cons_append,
        List.nil_append]
    · rw [applyRule_zero cat h, ih]
      simp only [List.map_cons, specPass, if_neg h]

theorem specPass_append :
    ∀ (rs1 rs2 : List (RuleCat × (List Char × List Char))) (s : List Char),
      specPass (rs1 ++ rs2) s =
        ((specPass rs2 (specPass rs1 s).1).1,
         (specPass rs1 s).2 ++ (specPass rs2 (specPass rs1 s).1).2) := by
  intro rs1
  induction rs1 with
  | nil =>
    intro rs2 s
    simp [specPass]
  | cons rule rest ih =>
    intro rs2 s
    obtain ⟨cat, p, r⟩ := rule
    by_cases h : 0 < countOcc p s
    · simp only [List.cons_append, specPass, if_pos h, List.append_eq, ih, List.append_assoc,
        List.cons_append]
    · simp only [List.cons_append, specPass, if_neg h, List.append_eq, ih]

/-- C3: `apply_patch` applies the rules in fixed Rule Set order — the
URL loop then the bug-fix loop — and this equals one ordered pass over
the tagged rule list in which each rule's match count is taken against
the cumulative text and each positive count appends exactly one change
record entry with that rule's category, pattern, replacement and
count. -/
theorem apply_patch_rule_order (s : List Char) :
    patchTransform s = specPass taggedRules s := by
  rw [patchTransform]
  rw [foldl_applyRule_eq_specPass RuleCat.URL URL_REPLACEMENTS s []]
  rw [List.nil_append]
  rw [foldl_applyRule_eq_specPass RuleCat.BUG BUG_FIXES
    (specPass (URL_REPLACEMENTS.map fun pr => (RuleCat.URL, pr)) s).1
    (specPass (URL_REPLACEMENTS.map fun pr => (RuleCat.URL, pr)) s).2]
  rw [taggedRules, specPass_append]

/-- ASCII fragment of Python's `\s` class, the whitespace characters
that can terminate a detection-regex match. -/
def isSpaceChar (c : Char) : Bool :=
  c == ' ' || c == '\t' || c == '\n' || c == '\r' || c == '\x0b' || c == '\x0c'

/-- Character class `[^\s\x27\x22]` of the detection regex
`ftp://[^\s\x27\x22]+` used by `analyze_file` and `verify_patch`
(\x27 and \x22 are the two quote characters). -/
def urlChar (c : Char) : Bool :=
  !(isSpaceChar c || c == '\x27' || c == '\x22')

/-- The literal scheme part of the detection regex. -/
def ftpMark : List Char := "ftp://".toList

/-- Does the detection regex match at the head of `s`?  It needs the
literal scheme followed by at least one class character. -/
def ftpMatchHead (s : List Char) : Bool :=
  startsWithL ftpMark s &&
    (match s.drop 6 with
     | [] => false
     | c :: _ => urlChar c)

/-- `re.findall` for the detection regex: scan left to right; on a
match emit the scheme plus the maximal run of class characters and
resume after it, otherwise advance one character.  `fuel` is a
structural bound; callers pass `s.length`. -/
def ftpFindallF : Nat → List Char → List (List Char)
  | _, [] => []
  | 0, _ :: _ => []
  | fuel + 1, c :: rest =>
    if ftpMatchHead (c :: rest) then
      (ftpMark ++ List.takeWhile urlChar ((c :: rest).drop 6)) ::
        ftpFindallF fuel
          ((c :: rest).drop (6 + (List.takeWhile urlChar ((c :: rest).drop 6)).length))
    else ftpFindallF fuel rest

/-- All matches of the detection regex in `s`, in scan order
(`analyze_file`'s `ftp_urls` list). -/
def ftpFindall (s : List Char) : List (List Char) := ftpFindallF s.length s

theorem ends_cons_iff {t : List Char} {c : Char} {s : List Char} :
    Ends t (c :: s) ↔ t = c :: s ∨ Ends t s := by
  constructor
  · rintro ⟨w, hw⟩
    cases w with
    | nil => exact Or.inl (by simpa using hw.symm)
    | cons d w' =>
      injection hw with h1 h2
      exact Or.inr ⟨w', h2⟩
  · rintro (rfl | ⟨w, rfl⟩)
    · exact ⟨[], rfl⟩
    · exact ⟨c :: w, rfl⟩

theorem ends_nil_iff (t : List Char) : Ends t [] ↔ t = [] := by
  constructor
  · rintro ⟨w, hw⟩
    exact ((List.append_eq_nil.1 hw.symm)).2
  · rintro rfl
    exact ⟨[], rfl⟩

theorem ftpMatchHead_nil : ftpMatchHead [] = false := by decide

/-- The scan returns no match exactly when no final segment of `s`
starts with a detection-regex match. -/
theorem ftpFindallF_eq_nil_iff :
    ∀ fuel s, s.length ≤ fuel →
      (ftpFindallF fuel s = [] ↔ ∀ t, Ends t s → ftpMatchHead t = false) := by
  intro fuel
  induction fuel with
  | zero =>
    intro s hs
    have hsnil : s = [] := List.length_eq_zero.1 (Nat.le_zero.1 hs)
    subst hsnil
    simp only [ftpFindallF, true_iff]
    intro t ht
    rw [(ends_nil_iff t).1 ht]
    exact ftpMatchHead_nil
  | succ fuel ih =>
    intro s hs
    cases s with
    | nil =>
      simp only [ftpFindallF, true_iff]
      intro t ht
      rw [(ends_nil_iff t).1 ht]
      exact ftpMatchHead_nil
    | cons c rest =>
      by_cases hm : ftpMatchHead (c :: rest) = true
      · rw [show ftpFindallF (fuel + 1) (c :: rest) =
            (ftpMark ++ List.takeWhile urlChar ((c :: rest).drop 6)) ::
              ftpFindallF fuel
                ((c :: rest).drop
                  (6 + (List.takeWhile urlChar ((c :: rest).drop 6)).length)) by
            simp only [ftpFindallF, hm, if_true]]
        constructor
        · intro h
          cases h
        · intro h
          have := h (c :: rest) ⟨[], rfl⟩
          rw [hm] at this
          cases this
      · have hm' : ftpMatchHead (c :: rest) = false := Bool.of_not_eq_true hm
        rw [show ftpFindallF (fuel + 1) (c :: rest) = ftpFindallF fuel rest by
            simp only [ftpFindallF, hm', Bool.false_eq_true, if_false]]
        have hlen : rest.length ≤ fuel := by
          simp only [List.length_cons] at hs
          omega
        rw [ih rest hlen]
        constructor
        · intro h t ht
          rcases ends_cons_iff.1 ht with rfl | ht'
          · exact hm'
          · exact h t ht'
        · intro h t ht
          exact h t (ends_cons_iff.2 (Or.inr ht))

theorem occurs_mono_ends {u t s : List Char} (h1 : Occurs u t) (h2 : Ends t s) :
    Occurs u s := by
  obtain ⟨w, rfl⟩ := h2
  exact occurs_append_right w h1

theorem ftpMark_length : ftpMark.length = 6 := by decide

theorem drop_ends (k : Nat) (s : List Char) : Ends (s.drop k) s :=
  ⟨s.take k, (List.take_append_drop k s).symm⟩

/-- Every string returned by the scan occurs in the input and has the
shape of a detection-regex match: the literal scheme followed by a
nonempty run of class characters. -/
theorem ftpFindallF_mem :
    ∀ fuel s, ∀ u ∈ ftpFindallF fuel s,
      Occurs u s ∧ startsWithL ftpMark u = true ∧
      u.drop 6 ≠ [] ∧ (u.drop 6).all urlChar = true := by
  intro fuel
  induction fuel with
  | zero =>
    intro s u hu
    cases s with
    | nil => cases hu
    | cons c rest => cases hu
  | succ fuel ih =>
    intro s u hu
    cases s with
    | nil => cases hu
    | cons c rest =>
      by_cases hm : ftpMatchHead (c :: rest) = true
      · rw [show ftpFindallF (fuel + 1) (c :: rest) =
            (ftpMark ++ List.takeWhile urlChar ((c :: rest).drop 6)) ::
              ftpFindallF fuel
                ((c :: rest).drop
                  (6 + (List.takeWhile urlChar ((c :: rest).drop 6)).length)) by
            simp only [ftpFindallF, hm, if_true]] at hu
        have hsw : startsWithL ftpMark (c :: rest) = true := by
          simp only [ftpMatchHead, Bool.and_eq_true] at hm
          exact hm.1
        have hdec : (c :: rest) = ftpMark ++ (c :: rest).drop 6 := by
          have := starts_drop hsw
          rwa [ftpMark_length] at this
        rcases List.mem_cons.1 hu with rfl | hu'
        · set run := List.takeWhile urlChar ((c :: rest).drop 6) with hrun
          have hdrop6 : (ftpMark ++ run).drop 6 = run := by
            have := List.drop_left ftpMark run
            rwa [ftpMark_length] at this
          have hrunne : run ≠ [] := by
            simp only [ftpMatchHead, Bool.and_eq_true] at hm
            cases hd : (c :: rest).drop 6 with
            | nil => rw [hd] at hm; exact absurd hm.2 (by simp)
            | cons d tail =>
              rw [hd] at hm
              rw [hrun, hd, List.takeWhile_cons, if_pos hm.2]
              simp
          refine ⟨?_, ?_, ?_, ?_⟩
          · refine starts_occurs ⟨List.dropWhile urlChar ((c :: rest).drop 6), ?_⟩
            conv_lhs => rw [hdec]
            rw [List.append_assoc, hrun, List.takeWhile_append_dropWhile]
          · exact (startsWithL_iff _ _).2 ⟨run, rfl⟩
          · rw [hdrop6]; exact hrunne
          · rw [hdrop6, List.all_eq_true]
            intro x hx
            exact List.mem_takeWhile_imp hx
        · have := ih _ u hu'
          exact ⟨occurs_mono_ends this.1 (drop_ends _ _), this.2⟩
      · have hm' : ftpMatchHead (c :: rest) = false := Bool.of_not_eq_true hm
        rw [show ftpFindallF (fuel + 1) (c :: rest) = ftpFindallF fuel rest by
            simp only [ftpFindallF, hm', Bool.false_eq_true, if_false]] at hu
        have := ih rest u hu
        exact ⟨occurs_mono_ends this.1 ⟨[c], rfl⟩, this.2⟩

theorem ftpMatchHead_extend {P : List Char} (hP : ftpMatchHead P = true) (v : List Char) :
    ftpMatchHead (P ++ v) = true := by
  simp only [ftpMatchHead, Bool.and_eq_true] at hP ⊢
  obtain ⟨hs, hc⟩ := hP
  obtain ⟨t, rfl⟩ := (startsWithL_iff _ _).1 hs
  have hdt : (ftpMark ++ t).drop 6 = t := by
    have := List.drop_left ftpMark t
    rwa [ftpMark_length] at this
  rw [hdt] at hc
  constructor
  · exact (startsWithL_iff _ _).2 ⟨t ++ v, by simp⟩
  · have hdtv : (ftpMark ++ t ++ v).drop 6 = t ++ v := by
      have := List.drop_left ftpMark (t ++ v)
      rw [ftpMark_length] at this
      rw [List.append_assoc]
      exact this
    rw [hdtv]
    cases t with
    | nil => exact absurd hc (by simp)
    | cons d t' => exact hc

/-- If no final segment of `s` begins a detection-regex match, then no
legacy-shaped string occurs in `s` at all. -/
theorem no_legacy_no_occurs {P s : List Char} (hP : ftpMatchHead P = true)
    (h : ∀ t, Ends t s → ftpMatchHead t = false) : ¬ Occurs P s := by
  rintro ⟨u, v, rfl⟩
  have hEnd : Ends (P ++ v) (u ++ P ++ v) := ⟨u, by simp⟩
  have hfalse := h (P ++ v) hEnd
  rw [ftpMatchHead_extend hP v] at hfalse
  cases hfalse

/-- Filesystem state relevant to the patcher: the target file
(`database_processing.py`), the pristine `.py.original` snapshot if it
exists, and the timestamped snapshots under the backup root keyed by
their timestamp. -/
structure FSState where
  target : List Char
  pristine : Option (List Char)
  backups : List (Nat × List Char)
deriving DecidableEq

/-- `DRAMPatcher.create_backup`: copy the current target into a fresh
timestamped snapshot, then write the pristine copy only if none exists
yet. -/
def create_backup (now : Nat) (st : FSState) : FSState :=
  let st1 : FSState := { st with backups := st.backups ++ [(now, st.target)] }
  match st1.pristine with
  | some _ => st1
  | none => { st1 with pristine := some st1.target }

/-- `DRAMPatcher.restore_backup`: if the pristine copy exists, overwrite
the target with it and report success, otherwise report failure without
touching anything. -/
def restore_backup (st : FSState) : Bool × FSState :=
  match st.pristine with
  | none => (false, st)
  | some c => (true, { st with target := c })

/-- `DRAMPatcher.analyze_file`: read the target and return every match
of the detection regex; purely a read. -/
def analyze_file (st : FSState) : List (List Char) × FSState :=
  (ftpFindall st.target, st)

/-- `DRAMPatcher.apply_patch`: run the rule pipeline over the target's
text.  With an empty change record it reports False ("no changes") and
writes nothing; otherwise it reports True, and writes the transformed
text back unless `dry_run` is set. -/
def apply_patch (dry_run : Bool) (st : FSState) : Bool × FSState :=
  let res := patchTransform st.target
  if res.2.isEmpty then (false, st)
  else if dry_run then (true, st)
  else (true, { st with target := res.1 })

/-- `DRAMPatcher.verify_patch`: re-scan the target; clean (True) iff
zero legacy references remain; residue only lowers the Boolean result,
it is never raised as an error. -/
def verify_patch (st : FSState) : Bool × FSState :=
  ((ftpFindall st.target).length == 0, st)

/-- The operations the engine can perform on the filesystem state. -/
inductive EngineOp
  | backup (now : Nat)
  | restore
  | patch (dry_run : Bool)
  | analyze
  | verify

/-- State effect of one engine operation. -/
def runOp (st : FSState) : EngineOp → FSState
  | EngineOp.backup now => create_backup now st
  | EngineOp.restore => (restore_backup st).2
  | EngineOp.patch d => (apply_patch d st).2
  | EngineOp.analyze => (analyze_file st).2
  | EngineOp.verify => (verify_patch st).2

/-- State effect of a sequence of engine operations. -/
def runOps (ops : List EngineOp) (st : FSState) : FSState := ops.foldl runOp st

theorem apply_patch_eq (d : Bool) (st : FSState) :
    apply_patch d st =
      if (patchTransform st.target).2.isEmpty then (false, st)
      else if d then (true, st)
      else (true, { st with target := (patchTransform st.target).1 }) := rfl

theorem create_backup_target (now : Nat) (st : FSState) :
    (create_backup now st).target = st.target := by
  cases h : st.pristine with
  | none => simp [create_backup, h]
  | some c => simp [create_backup, h]

theorem create_backup_pristine (now : Nat) (st : FSState) :
    (create_backup now st).pristine = some (st.pristine.getD st.target) := by
  cases h : st.pristine with
  | none => simp [create_backup, h]
  | some c => simp [create_backup, h]

theorem apply_patch_pristine (d : Bool) (st : FSState) :
    ((apply_patch d st).2).pristine = st.pristine := by
  rw [apply_patch_eq]
  by_cases h : (patchTransform st.target).2.isEmpty = true
  · rw [if_pos h]
  · rw [if_neg h]
    by_cases hd : d = true
    · rw [if_pos hd]
    · rw [if_neg hd]

theorem apply_patch_backups (d : Bool) (st : FSState) :
    ((apply_patch d st).2).backups = st.backups := by
  rw [apply_patch_eq]
  by_cases h : (patchTransform st.target).2.isEmpty = true
  · rw [if_pos h]
  · rw [if_neg h]
    by_cases hd : d = true
    · rw [if_pos hd]
    · rw [if_neg hd]

theorem restore_backup_some (st : FSState) (c : List Char) (h : st.pristine = some c) :
    restore_backup st = (true, { st with target := c }) := by
  rw [restore_backup, h]

/-- C9: calling `restore_backup` when no pristine snapshot exists
returns the failure outcome `False` without raising, and leaves the
whole state — in particular the target file — unmodified. -/
theorem restore_backup_no_pristine (st : FSState) (h : st.pristine = none) :
    restore_backup st = (false, st) := by
  rw [restore_backup, h]

theorem restore_backup_no_pristine_witness :
    restore_backup ⟨"some content".toList, none, []⟩ = (false, ⟨"some content".toList, none, []⟩) :=
  restore_backup_no_pristine ⟨"some content".toList, none, []⟩ rfl

/-- C6: a dry-run `apply_patch` performs no write at all — the target
file, the pristine snapshot and the timestamped snapshots are exactly
as before — while still reporting whether the rule pipeline produced a
nonempty change record. -/
theorem apply_patch_dry_run_pure (st : FSState) :
    (apply_patch true st).2 = st ∧
    (apply_patch true st).1 = !(patchTransform st.target).2.isEmpty := by
  rw [apply_patch_eq]
  by_cases h : (patchTransform st.target).2.isEmpty = true
  · rw [if_pos h, h]
    exact ⟨rfl, rfl⟩
  · rw [if_neg h, if_pos rfl]
    have hb : (patchTransform st.target).2.isEmpty = false := Bool.of_not_eq_true h
    rw [hb]
    exact ⟨rfl, rfl⟩

/-- C4 counterexample: if a pristine snapshot from an earlier run
already exists, `create_backup` does not refresh it (first-patch-wins),
so an immediate `restore_backup` yields that earlier pristine content —
not the content the target had when `create_backup` was called. -/
theorem backup_restore_not_roundtrip :
    ((restore_backup (create_backup 1
        ⟨"current text".toList, some "earlier text".toList, []⟩)).2).target
      ≠ "current text".toList := by decide

/-- C4 (amended): if no pristine snapshot exists when `create_backup`
is called, then `create_backup` followed by `restore_backup` returns
the target byte-for-byte to its content at backup time, also when an
`apply_patch` call mutates the target in between; if a pristine
snapshot already existed, both round trips yield that pristine content
instead. -/
theorem backup_restore_roundtrip (st : FSState) (now : Nat) (dry : Bool) :
    (st.pristine = none →
      ((restore_backup (create_backup now st)).2).target = st.target ∧
      ((restore_backup ((apply_patch dry (create_backup now st)).2)).2).target = st.target) ∧
    (∀ c, st.pristine = some c →
      ((restore_backup (create_backup now st)).2).target = c ∧
      ((restore_backup ((apply_patch dry (create_backup now st)).2)).2).target = c) := by
  constructor
  · intro h
    have h1 : (create_backup now st).pristine = some st.target := by
      rw [create_backup_pristine, h]
      rfl
    constructor
    · rw [restore_backup_some (create_backup now st) st.target h1]
    · have h2 : ((apply_patch dry (create_backup now st)).2).pristine = some st.target := by
        rw [apply_patch_pristine]
        exact h1
      rw [restore_backup_some _ st.target h2]
  · intro c h
    have h1 : (create_backup now st).pristine = some c := by
      rw [create_backup_pristine, h]
      rfl
    constructor
    · rw [restore_backup_some (create_backup now st) c h1]
    · have h2 : ((apply_patch dry (create_backup now st)).2).pristine = some c := by
        rw [apply_patch_pristine]
        exact h1
      rw [restore_backup_some _ c h2]

theorem backup_restore_roundtrip_witness :
    ((restore_backup ((apply_patch false (create_backup 0
        ⟨"url ftp://ftp.genome.jp/x end".toList, none, []⟩)).2)).2).target
      = "url ftp://ftp.genome.jp/x end".toList :=
  ((backup_restore_roundtrip ⟨"url ftp://ftp.genome.jp/x end".toList, none, []⟩ 0 false).1
    rfl).2

/-- C5: the pristine snapshot is written at most once per target:
`create_backup` fills it with the current target content only when it
is absent, and once present no engine operation — backup, restore,
patch (dry or real), analyze or verify, in any sequence — ever changes
it. -/
theorem pristine_first_patch_wins :
    (∀ now st, (create_backup now st).pristine = some (st.pristine.getD st.target)) ∧
    (∀ ops st c, st.pristine = some c → (runOps ops st).pristine = some c) := by
  constructor
  · exact create_backup_pristine
  · have hop : ∀ st op c, st.pristine = some c → (runOp st op).pristine = some c := by
      intro st op c h
      cases op with
      | backup now =>
        simp only [runOp]
        rw [create_backup_pristine, h]
        rfl
      | restore =>
        simp only [runOp]
        rw [restore_backup_some st c h]
        exact h
      | patch d =>
        simp only [runOp]
        rw [apply_patch_pristine]
        exact h
      | analyze =>
        simp only [runOp, analyze_file]
        exact h
      | verify =>
        simp only [runOp, verify_patch]
        exact h
    intro ops
    induction ops with
    | nil =>
      intro st c h
      exact h
    | cons op rest ih =>
      intro st c h
      exact ih (runOp st op) c (hop st op c h)

theorem pristine_first_patch_wins_witness :
    (runOps [EngineOp.backup 3, EngineOp.patch false, EngineOp.restore, EngineOp.verify]
      ⟨"patched".toList, some "original".toList, []⟩).pristine = some "original".toList :=
  pristine_first_patch_wins.2
    [EngineOp.backup 3, EngineOp.patch false, EngineOp.restore, EngineOp.verify]
    ⟨"patched".toList, some "original".toList, []⟩ "original".toList rfl

/-- C7: `analyze_file` is a pure read — it leaves the whole filesystem
state unchanged — and returns exactly the matches of the generic
detection regex against the target: every returned string occurs in the
target and is legacy-shaped (the scheme literal followed by a nonempty
run of class characters), the reported distinct set and total count are
the deduplication and length of that match list, and the list is empty
precisely when no final segment of the target starts a match. -/
theorem analyze_file_pure (st : FSState) :
    (analyze_file st).2 = st ∧
    (analyze_file st).1 = ftpFindall st.target ∧
    (∀ u ∈ (analyze_file st).1,
      Occurs u st.target ∧ startsWithL ftpMark u = true ∧
      u.drop 6 ≠ [] ∧ (u.drop 6).all urlChar = true) ∧
    ((analyze_file st).1 = [] ↔ ∀ t, Ends t st.target → ftpMatchHead t = false) := by
  refine ⟨rfl, rfl, ?_, ?_⟩
  · intro u hu
    exact ftpFindallF_mem st.target.length st.target u hu
  · exact ftpFindallF_eq_nil_iff st.target.length st.target (Nat.le_refl _)

theorem analyze_file_pure_witness :
    Occurs "ftp://a.b".toList "see ftp://a.b here".toList :=
  ((analyze_file_pure ⟨"see ftp://a.b here".toList, none, []⟩).2.2.1
    "ftp://a.b".toList (by decide)).1

/-- C8: `verify_patch` is a pure read returning True exactly when zero
legacy-scheme references remain in the target (no final segment of the
content starts a detection-regex match); a non-clean result is the
Boolean False — a warning outcome — never a raised error. -/
theorem verify_patch_clean_iff (st : FSState) :
    (verify_patch st).2 = st ∧
    ((verify_patch st).1 = true ↔ ∀ t, Ends t st.target → ftpMatchHead t = false) := by
  refine ⟨rfl, ?_⟩
  show ((ftpFindall st.target).length == 0) = true ↔ _
  rw [beq_iff_eq, List.length_eq_zero]
  exact ftpFindallF_eq_nil_iff st.target.length st.target (Nat.le_refl _)

theorem verify_patch_clean_iff_witness :
    (verify_patch ⟨"only https://x remains".toList, none, []⟩).1 = true :=
  (verify_patch_clean_iff ⟨"only https://x remains".toList, none, []⟩).2.2
    ((ftpFindallF_eq_nil_iff "only https://x remains".toList.length
      "only https://x remains".toList (Nat.le_refl _)).1 (by decide))

/-- C1 counterexample: a target containing only the bug-fix pattern has
an empty detection set, yet `apply_patch` fires the bug-fix rule (whose
pattern contains no legacy scheme), reports a change and rewrites the
target — so an empty detection set does not imply the "no changes"
outcome. -/
theorem no_ftp_but_bugfix_fires :
    ftpFindall "path.join(hmm_dir, \x27VOG*.hmm\x27)".toList = [] ∧
    (apply_patch false ⟨"path.join(hmm_dir, \x27VOG*.hmm\x27)".toList, none, []⟩).1 = true ∧
    ((apply_patch false ⟨"path.join(hmm_dir, \x27VOG*.hmm\x27)".toList, none, []⟩).2).target
      ≠ "path.join(hmm_dir, \x27VOG*.hmm\x27)".toList := by
  refine ⟨by decide, by decide, by decide⟩

theorem urls_legacy_shaped :
    (URL_REPLACEMENTS.all fun pr => ftpMatchHead pr.1) = true := by decide

/-- C1 (amended): an empty detection set implies that no URL rule can
fire — every URL pattern has zero matches in the content — and
`apply_patch` performs no write and reports "no changes" precisely when
the bug-fix patterns, which contain no legacy scheme, also have zero
matches. -/
theorem no_ftp_no_url_rule (st : FSState) (dry : Bool)
    (h : ftpFindall st.target = []) :
    (∀ pr ∈ URL_REPLACEMENTS, countOcc pr.1 st.target = 0) ∧
    (apply_patch dry st = (false, st) ↔ ∀ pr ∈ BUG_FIXES, countOcc pr.1 st.target = 0) := by
  have hnil : ∀ t, Ends t st.target → ftpMatchHead t = false :=
    (ftpFindallF_eq_nil_iff st.target.length st.target (Nat.le_refl _)).1 h
  have hurl : ∀ pr ∈ URL_REPLACEMENTS, countOcc pr.1 st.target = 0 := by
    intro pr hm
    have hshape : ftpMatchHead pr.1 = true :=
      List.all_eq_true.1 urls_legacy_shaped pr hm
    have hp : 0 < pr.1.length :=
      ruleListOK_nonempty allRulePairs allRulePairs_ok pr (List.mem_append_left _ hm)
    exact (countOcc_eq_zero_iff hp st.target).2 (no_legacy_no_occurs hshape hnil)
  refine ⟨hurl, ?_⟩
  have hfoldURL : URL_REPLACEMENTS.foldl (applyRule RuleCat.URL) (st.target, []) =
      (st.target, []) :=
    foldl_applyRule_no_match_pair RuleCat.URL URL_REPLACEMENTS st.target [] hurl
  set pB : List Char := "path.join(hmm_dir, \x27VOG*.hmm\x27)".toList with hpB
  set rB : List Char := "path.join(hmm_dir, \x27hmm\x27, \x27VOG*.hmm\x27)".toList with hrB
  have hpt2 : patchTransform st.target = applyRule RuleCat.BUG (st.target, []) (pB, rB) := by
    rw [patchTransform, hfoldURL]
    rfl
  by_cases hb : 0 < countOcc pB st.target
  · have happ : applyRule RuleCat.BUG (st.target, []) (pB, rB) =
        (replaceAll pB rB st.target, [⟨RuleCat.BUG, pB, rB, countOcc pB st.target⟩]) := by
      rw [applyRule_pos RuleCat.BUG hb]
      rfl
    have hres : patchTransform st.target =
        (replaceAll pB rB st.target, [⟨RuleCat.BUG, pB, rB, countOcc pB st.target⟩]) :=
      hpt2.trans happ
    constructor
    · intro habs
      rw [apply_patch_eq, hres] at habs
      simp only [List.isEmpty_cons, Bool.false_eq_true, if_false] at habs
      by_cases hd : dry = true
      · rw [if_pos hd] at habs
        cases habs
      · rw [if_neg hd] at habs
        cases habs
    · intro hall
      have h0 : countOcc pB st.target = 0 :=
        hall (pB, rB) (List.mem_cons_self _ _)
      rw [h0] at hb
      exact absurd hb (Nat.lt_irrefl 0)
  · have h0 : countOcc pB st.target = 0 := Nat.eq_zero_of_not_pos hb
    have hres : patchTransform st.target = (st.target, []) :=
      hpt2.trans (applyRule_zero RuleCat.BUG hb)
    constructor
    · intro _ pr hm
      have : pr = (pB, rB) := by
        rcases List.mem_cons.1 hm with h1 | h1
        · exact h1
        · cases h1
      rw [this]
      exact h0
    · intro _
      rw [apply_patch_eq, hres]
      rfl

theorem no_ftp_no_url_rule_witness :
    apply_patch false ⟨"clean https text".toList, none, []⟩ =
      (false, ⟨"clean https text".toList, none, []⟩) :=
  ((no_ftp_no_url_rule ⟨"clean https text".toList, none, []⟩ false (by decide)).2).2
    (by decide)

/-- A FASTA record as produced by the Biopython FASTA reader: an
identifier and a sequence (both plain text). -/
structure FastaRecord where
  rid : List Char
  seq : List Char
deriving DecidableEq

/-- The streaming loop of `concatenate_reads.py`: `zip` the forward and
reverse record streams and, for each pair, emit one record carrying the
forward id and the forward sequence, the ten-character N separator, and
the reverse sequence.  `zip` stops at the shorter stream. -/
def concatenate_reads (fwd rev : List FastaRecord) : List FastaRecord :=
  List.zipWith
    (fun fwd_record rev_record =>
      ⟨fwd_record.rid, fwd_record.seq ++ "NNNNNNNNNN".toList ++ rev_record.seq⟩)
    fwd rev

theorem zipWith_getElem_some {α : Type} (g : FastaRecord → FastaRecord → α) :
    ∀ (fwd rev : List FastaRecord) (i : Nat) (f r : FastaRecord),
      fwd[i]? = some f → rev[i]? = some r →
      (List.zipWith g fwd rev)[i]? = some (g f r) := by
  intro fwd
  induction fwd with
  | nil =>
    intro rev i f r hf
    simp at hf
  | cons a fwd ih =>
    intro rev i f r hf hr
    cases rev with
    | nil => simp at hr
    | cons b rev =>
      cases i with
      | zero =>
        simp only [List.getElem?_cons_zero, Option.some.injEq] at hf hr
        subst hf
        subst hr
        simp [List.zipWith]
      | succ i =>
        simp only [List.getElem?_cons_succ] at hf hr
        simp only [List.zipWith, List.getElem?_cons_succ]
        exact ih rev i f r hf hr

/-- C10: the concatenation utility emits exactly
`min (number of forward records) (number of reverse records)` output
records — trailing unpaired records of the longer input are dropped —
and the i-th output record carries the i-th forward id, with sequence
equal to the i-th forward sequence, then exactly ten N characters, then
the i-th reverse sequence. -/
theorem concatenate_reads_spec (fwd rev : List FastaRecord) :
    (concatenate_reads fwd rev).length = min fwd.length rev.length ∧
    ∀ (i : Nat) (f r : FastaRecord), fwd[i]? = some f → rev[i]? = some r →
      (concatenate_reads fwd rev)[i]? =
        some ⟨f.rid, f.seq ++ List.replicate 10 'N' ++ r.seq⟩ := by
  constructor
  · exact List.length_zipWith _ _ _
  · intro i f r hf hr
    have hN : "NNNNNNNNNN".toList = List.replicate 10 'N' := by decide
    rw [concatenate_reads] at *
    have := zipWith_getElem_some
      (fun fwd_record rev_record =>
        (⟨fwd_record.rid, fwd_record.seq ++ "NNNNNNNNNN".toList ++ rev_record.seq⟩ :
          FastaRecord))
      fwd rev i f r hf hr
    rw [this, hN]

theorem concatenate_reads_spec_witness :
    (concatenate_reads
      [⟨"r1".toList, "ACGT".toList⟩, ⟨"r2".toList, "GG".toList⟩]
      [⟨"s1".toList, "TTAA".toList⟩]).length = 1 ∧
    (concatenate_reads
      [⟨"r1".toList, "ACGT".toList⟩, ⟨"r2".toList, "GG".toList⟩]
      [⟨"s1".toList, "TTAA".toList⟩])[0]? =
      some ⟨"r1".toList, "ACGT".toList ++ List.replicate 10 'N' ++ "TTAA".toList⟩ := by
  constructor
  · have := (concatenate_reads_spec
      [⟨"r1".toList, "ACGT".toList⟩, ⟨"r2".toList, "GG".toList⟩]
      [⟨"s1".toList, "TTAA".toList⟩]).1
    simpa using this
  · exact (concatenate_reads_spec
      [⟨"r1".toList, "ACGT".toList⟩, ⟨"r2".toList, "GG".toList⟩]
      [⟨"s1".toList, "TTAA".toList⟩]).2 0
      ⟨"r1".toList, "ACGT".toList⟩ ⟨"s1".toList, "TTAA".toList⟩ (by decide) (by decide)
